import Mathlib

/-!
Shallow embedding of the numerical-integration calculator
(`ExpressionParser` and `NumericalIntegrator`).

Modelling conventions:
* `double` is modelled by `ℚ` (exact field arithmetic; the claims below
  concern control flow, error conditions and formula structure, not
  floating-point rounding).
* The transcendental library functions (`std::sin`, `std::pow`, ...) have no
  exact rational counterpart; they are abstracted into a record `MathOps` of
  uninterpreted functions, so every theorem holds for any interpretation.
  `std::abs` is modelled exactly by `|·|`.
* `ExpressionParser::infixToPostfix` builds a space-separated string of
  tokens; `ExpressionParser::evaluate` re-splits that string on whitespace.
  Every append in the C++ code terminates the appended token with `' '` (and
  the defensive `result.back() != ' '` checks never fire on a non-empty
  result, which always ends in `' '`), so the postfix string is faithfully
  represented as a list of tokens `PTok`, where `PTok.num s` stands for the
  numeric literal string `s`, `PTok.var` for the token `"x"`, `PTok.func f`
  for the (reconstructed) identifier string `f`, and `PTok.op c` for the
  single-character token `c`.
* C++ exceptions are modelled by `Except`: `ParseError` for
  `std::invalid_argument` thrown by the parser, `EvalError` for
  `std::runtime_error` thrown by the evaluator.
* The operator stack `opStack` of `infixToPostfix` genuinely holds single
  characters (operators, `'('`, the function marker `'#'`, and the letters of
  function names pushed one by one); it is modelled as a `List Char` whose
  head is the stack top.
-/

/-- `ExpressionParser::precedence`. -/
def precOf (c : Char) : Nat :=
  if c = '^' then 4
  else if c = '*' ∨ c = '/' then 3
  else if c = '+' ∨ c = '-' then 2
  else 0

/-- `ExpressionParser::isOperator`. -/
def isOpChar (c : Char) : Bool :=
  c = '+' ∨ c = '-' ∨ c = '*' ∨ c = '/' ∨ c = '^'

/-- `ExpressionParser::isRightAssociative`. -/
def isRightAssoc (c : Char) : Bool := c = '^'

/-- A character scanned as part of a number literal (digit or decimal point),
matching the scanning loop `std::isdigit(expr[i]) || expr[i] == '.'`. -/
def numChar (c : Char) : Bool := c.isDigit || c = '.'

/-- Does the list start with a digit?  Models `i + 1 < expr.length() &&
std::isdigit(expr[i + 1])` for the character following the current one. -/
def firstIsDigit : List Char → Bool
  | [] => false
  | d :: _ => d.isDigit

/-- One token of the postfix program (one whitespace-separated word of the
`postfix_` string). -/
inductive PTok where
  | num (s : String)
  | var
  | func (s : String)
  | op (c : Char)
deriving DecidableEq, Repr

/-- The `std::invalid_argument` exceptions thrown by
`ExpressionParser::infixToPostfix`, one constructor per distinct message. -/
inductive ParseError where
  /-- "Unbalanced parentheses: extra closing ')'" -/
  | extraClose
  /-- "Unbalanced parentheses: missing opening '('" -/
  | missingOpen
  /-- "Unbalanced parentheses: missing closing ')'" -/
  | missingClose
  /-- "Unbalanced parentheses in expression" -/
  | unbalanced
deriving DecidableEq, Repr

/-- The reconstruction of a function name popped letter by letter:
`func = opStack.top() + func` reverses the pop order, so the name is the
reverse of the letters as they sit on the stack. -/
def takeFuncName (r : List Char) : String :=
  String.mk ((r.takeWhile Char.isAlpha).reverse)

/-- The inner `while (!opStack.empty() && opStack.top() != '(')` loop of the
close-parenthesis case: emits operators (and reconstructs `'#'`-marked
function names) until the matching `'('` is popped; an empty stack means the
"missing opening" error. Returns the emitted tokens and the remaining stack
(with the `'('` already removed). -/
def emitUntilOpen : List Char → Except ParseError (List PTok × List Char)
  | [] => .error .missingOpen
  | c :: r =>
    if c = '(' then .ok ([], r)
    else if c = '#' then
      (emitUntilOpen (r.dropWhile Char.isAlpha)).map
        (fun p => (PTok.func (takeFuncName r) :: p.1, p.2))
    else
      (emitUntilOpen r).map (fun p => (PTok.op c :: p.1, p.2))
termination_by l => l.length
decreasing_by all_goals
  simp only [List.length_cons]
  first
  | exact Nat.lt_succ_of_le (List.dropWhile_sublist _).length_le
  | omega

/-- The `if (!opStack.empty() && opStack.top() == '#')` check after a
close-parenthesis: if a function marker lies beneath the popped `'('`, emit
that function too. -/
def afterFuncMark : List Char → (List PTok × List Char)
  | [] => ([], [])
  | c :: r =>
    if c = '#' then ([PTok.func (takeFuncName r)], r.dropWhile Char.isAlpha)
    else ([], c :: r)

/-- The final `while (!opStack.empty())` loop of `infixToPostfix`: emits
everything left on the operator stack. -/
def drainStack : List Char → Except ParseError (List PTok)
  | [] => .ok []
  | c :: r =>
    if c = '(' ∨ c = ')' then .error .unbalanced
    else if c = '#' then
      (drainStack (r.dropWhile Char.isAlpha)).map (PTok.func (takeFuncName r) :: ·)
    else
      (drainStack r).map (PTok.op c :: ·)
termination_by l => l.length
decreasing_by all_goals
  simp only [List.length_cons]
  first
  | exact Nat.lt_succ_of_le (List.dropWhile_sublist _).length_le
  | omega

/-- The operator-token `while` loop: pop (and emit) stack operators of higher
precedence, or equal precedence when the incoming operator is
left-associative, stopping at `'('`. Returns the emitted tokens and the
remaining stack. -/
def popOps (c : Char) : List Char → (List PTok × List Char)
  | [] => ([], [])
  | t :: r =>
    if t ≠ '(' ∧ (precOf t > precOf c ∨ (precOf t = precOf c ∧ ¬ isRightAssoc c)) then
      let p := popOps c r
      (PTok.op t :: p.1, p.2)
    else ([], t :: r)

/-- `ExpressionParser::infixToPostfix`, one step per source character.
`cs` is the unread input, `stk` the operator stack (head = top), `pc` the
running `parenCount`. The emitted program is returned in source order. -/
def i2p (cs : List Char) (stk : List Char) (pc : Int) :
    Except ParseError (List PTok) :=
  match cs with
  | [] =>
    -- end of input: `if (parenCount != 0) throw`, then pop the whole stack
    if pc ≠ 0 then .error .missingClose else drainStack stk
  | c :: rest =>
    if c.isWhitespace then i2p rest stk pc
    else if c.isDigit || (c = '.' && firstIsDigit rest) then
      -- number literal: scan digits and decimal points
      let tok := String.mk (c :: rest.takeWhile numChar)
      (i2p (rest.dropWhile numChar) stk pc).map (PTok.num tok :: ·)
    else if c = 'x' ∨ c = 'X' then
      (i2p rest stk pc).map (PTok.var :: ·)
    else if c.isAlpha then
      -- identifier: scan letters, lowercasing each
      let tokL := (c :: rest.takeWhile Char.isAlpha).map Char.toLower
      let rest' := rest.dropWhile Char.isAlpha
      if tokL = ['x'] then
        (i2p rest' stk pc).map (PTok.var :: ·)
      else if tokL = ['p', 'i'] then
        -- `result += std::to_string(M_PI)`: "%f" formatting, 6 fractional digits
        (i2p rest' stk pc).map (PTok.num "3.141593" :: ·)
      else if tokL = ['e'] then
        -- `result += std::to_string(M_E)`
        (i2p rest' stk pc).map (PTok.num "2.718282" :: ·)
      else
        -- function: push its letters one by one, then the marker '#'
        i2p rest' ('#' :: tokL.reverse ++ stk) pc
    else if c = '(' then
      i2p rest ('(' :: stk) (pc + 1)
    else if c = ')' then
      if pc - 1 < 0 then .error .extraClose
      else
        match emitUntilOpen stk with
        | .error e => .error e
        | .ok (ts, stk') =>
          let p2 := afterFuncMark stk'
          (i2p rest p2.2 (pc - 1)).map (fun out => ts ++ p2.1 ++ out)
    else if isOpChar c then
      let p := popOps c stk
      (i2p rest (c :: p.2) pc).map (fun out => p.1 ++ out)
    else
      -- a character in no recognized class matches no branch of the C++
      -- for-loop and is silently skipped
      i2p rest stk pc
termination_by cs.length
decreasing_by all_goals
  simp only [List.length_cons]
  first
  | exact Nat.lt_succ_of_le (List.dropWhile_sublist _).length_le
  | omega

/-- `parser.infixToPostfix(s)` on a fresh parser: empty operator stack and
`parenCount = 0`. -/
def toRPN (s : String) : Except ParseError (List PTok) :=
  i2p s.toList [] 0

/-- The `std::runtime_error` exceptions thrown by
`ExpressionParser::evaluate`, one constructor per distinct message shape. -/
inductive EvalError where
  /-- "Invalid expression: <f> requires an argument" -/
  | missingArg (f : String)
  /-- "Domain error: <f> requires ... argument" -/
  | domainErr (f : String)
  /-- "Invalid expression: not enough operands for operator '<c>'" -/
  | insufficientOperands (c : Char)
  /-- "Division by zero" -/
  | divisionByZero
  /-- "Invalid expression: no result computed" -/
  | noResult
deriving DecidableEq, Repr

/-- The unary math-library functions used by the evaluator, plus `std::pow`,
left uninterpreted over `ℚ`. -/
structure MathOps where
  sinQ : ℚ → ℚ
  cosQ : ℚ → ℚ
  tanQ : ℚ → ℚ
  log10Q : ℚ → ℚ
  logQ : ℚ → ℚ
  sqrtQ : ℚ → ℚ
  expQ : ℚ → ℚ
  powQ : ℚ → ℚ → ℚ

/-- A trivial interpretation of the math library, used to instantiate
theorems at concrete inputs. -/
def dops : MathOps :=
  ⟨fun _ => 0, fun _ => 0, fun _ => 0, fun _ => 0, fun _ => 0,
   fun _ => 0, fun _ => 0, fun _ _ => 0⟩

/-- Value of a digit string, most significant first. -/
def digitsVal (l : List Char) : ℚ :=
  l.foldl (fun a c => a * 10 + ((c.toNat - '0'.toNat : Nat) : ℚ)) 0

/-- `std::stod` on the numeric tokens this parser emits (strings of digits
and decimal points, starting with a digit or with `'.'` followed by a
digit): longest valid prefix `digits ['.' digits]`, so a second decimal
point stops the conversion. -/
def stod (s : String) : ℚ :=
  let cs := s.toList
  let ip := cs.takeWhile Char.isDigit
  let rest := cs.dropWhile Char.isDigit
  match rest with
  | '.' :: r =>
    let fp := r.takeWhile Char.isDigit
    digitsVal ip + digitsVal fp / (10 : ℚ) ^ fp.length
  | _ => digitsVal ip

/-- The divisor tolerance `1e-15` of the division case. -/
def tol : ℚ := 1 / 10 ^ 15

/-- One iteration of the token loop of `ExpressionParser::evaluate`:
given the bound variable value `x` and the value stack `stk` (head = top),
process one token. The branch structure and the order of the domain and
arity checks follow the C++ `while (iss >> token)` body. A token matching
no branch (an unrecognized identifier) leaves the stack unchanged. -/
def evalStep (ops : MathOps) (x : ℚ) (stk : List ℚ) (t : PTok) :
    Except EvalError (List ℚ) :=
  match t with
  | .num s => .ok (stod s :: stk)
  | .var => .ok (x :: stk)
  | .func f =>
    if f = "sin" then
      match stk with
      | [] => .error (.missingArg "sin")
      | a :: r => .ok (ops.sinQ a :: r)
    else if f = "cos" then
      match stk with
      | [] => .error (.missingArg "cos")
      | a :: r => .ok (ops.cosQ a :: r)
    else if f = "tan" then
      match stk with
      | [] => .error (.missingArg "tan")
      | a :: r => .ok (ops.tanQ a :: r)
    else if f = "log" then
      match stk with
      | [] => .error (.missingArg "log")
      | a :: r =>
        if a ≤ 0 then .error (.domainErr "log") else .ok (ops.log10Q a :: r)
    else if f = "ln" then
      match stk with
      | [] => .error (.missingArg "ln")
      | a :: r =>
        if a ≤ 0 then .error (.domainErr "ln") else .ok (ops.logQ a :: r)
    else if f = "sqrt" then
      match stk with
      | [] => .error (.missingArg "sqrt")
      | a :: r =>
        if a < 0 then .error (.domainErr "sqrt") else .ok (ops.sqrtQ a :: r)
    else if f = "abs" then
      match stk with
      | [] => .error (.missingArg "abs")
      | a :: r => .ok (|a| :: r)
    else if f = "exp" then
      match stk with
      | [] => .error (.missingArg "exp")
      | a :: r => .ok (ops.expQ a :: r)
    else
      -- an unknown identifier token matches no `else if` and is ignored
      .ok stk
  | .op c =>
    if isOpChar c then
      match stk with
      | b :: a :: r =>
        -- `b` is popped first (right operand), then `a`
        if c = '+' then .ok ((a + b) :: r)
        else if c = '-' then .ok ((a - b) :: r)
        else if c = '*' then .ok ((a * b) :: r)
        else if c = '/' then
          if |b| < tol then .error .divisionByZero else .ok ((a / b) :: r)
        else if c = '^' then .ok (ops.powQ a b :: r)
        else .ok r
      | _ => .error (.insufficientOperands c)
    else
      -- a single non-operator character token matches no branch
      .ok stk

/-- The full token loop of `ExpressionParser::evaluate`: the final value
stack after executing the program from an empty stack. -/
def runPost (ops : MathOps) (x : ℚ) (p : List PTok) :
    Except EvalError (List ℚ) :=
  p.foldlM (evalStep ops x) []

/-- `ExpressionParser::evaluate`: run the program, then return
`valStack.top()`, or throw "no result computed" if the stack is empty. -/
def evaluate (ops : MathOps) (p : List PTok) (x : ℚ) : Except EvalError ℚ :=
  match runPost ops x p with
  | .error e => .error e
  | .ok [] => .error .noResult
  | .ok (v :: _) => .ok v

/-- The mutable state of a `NumericalIntegrator`: the parsed program owned by
its `parser_`, the bounds and the subdivision count (a C++ `int`, modelled
as `ℤ`). -/
structure IntState where
  prog : List PTok
  lowerBound : ℚ
  upperBound : ℚ
  subdivisions : ℤ
deriving DecidableEq, Repr

/-- The `NumericalIntegrator()` constructor: bounds `[0, 1]`,
1000 subdivisions, no expression parsed yet (`postfix_` empty). -/
def initIntegrator : IntState := ⟨[], 0, 1, 1000⟩

/-- `NumericalIntegrator::setBounds`: swaps the two arguments when
`lower > upper` (printing a note), then stores them. -/
def setBounds (st : IntState) (lower upper : ℚ) : IntState :=
  if lower > upper then { st with lowerBound := upper, upperBound := lower }
  else { st with lowerBound := lower, upperBound := upper }

/-- `NumericalIntegrator::setSubdivisions`: arguments below 1 are replaced
by 1 (printing a warning), then stored. -/
def setSubdivisions (st : IntState) (n : ℤ) : IntState :=
  { st with subdivisions := if n < 1 then 1 else n }

/-- A configuration call on the integrator. -/
inductive Cmd where
  | bounds (lower upper : ℚ)
  | subs (n : ℤ)

/-- Apply one configuration call. -/
def applyCmd (st : IntState) : Cmd → IntState
  | .bounds l u => setBounds st l u
  | .subs n => setSubdivisions st n

/-- Apply a sequence of configuration calls, left to right. -/
def applyCmds (st : IntState) (cmds : List Cmd) : IntState :=
  cmds.foldl applyCmd st

/-- `NumericalIntegrator::trapezoidalRule`, a `const` method: the returned
pair carries the computed value (or the propagated `EvalError`) together
with the object state after the call. -/
def trapezoidalRuleM (ops : MathOps) (st : IntState) :
    Except EvalError ℚ × IntState :=
  let f := fun y => evaluate ops st.prog y
  let n := st.subdivisions
  let h := (st.upperBound - st.lowerBound) / (n : ℚ)
  let r : Except EvalError ℚ := do
    let fl ← f st.lowerBound
    let fu ← f st.upperBound
    let s ← (List.range' 1 (n - 1).toNat).foldlM
      (fun acc (i : Nat) => do
        let v ← f (st.lowerBound + (i : ℚ) * h)
        pure (acc + v))
      (0.5 * (fl + fu))
    pure (h * s)
  (r, st)

/-- `NumericalIntegrator::simpsonsRule`, a `const` method: the local copy
`n` of the subdivision count is incremented when odd; the stored state is
never written. -/
def simpsonsRuleM (ops : MathOps) (st : IntState) :
    Except EvalError ℚ × IntState :=
  let f := fun y => evaluate ops st.prog y
  let n0 := st.subdivisions
  let n := if n0 % 2 ≠ 0 then n0 + 1 else n0
  let h := (st.upperBound - st.lowerBound) / (n : ℚ)
  let r : Except EvalError ℚ := do
    let fl ← f st.lowerBound
    let fu ← f st.upperBound
    let s ← (List.range' 1 (n - 1).toNat).foldlM
      (fun acc (i : Nat) => do
        let v ← f (st.lowerBound + (i : ℚ) * h)
        pure (acc + (if i % 2 = 0 then 2 * v else 4 * v)))
      (fl + fu)
    pure ((h / 3) * s)
  (r, st)

/-- `NumericalIntegrator::midpointRule`, a `const` method. -/
def midpointRuleM (ops : MathOps) (st : IntState) :
    Except EvalError ℚ × IntState :=
  let f := fun y => evaluate ops st.prog y
  let n := st.subdivisions
  let h := (st.upperBound - st.lowerBound) / (n : ℚ)
  let r : Except EvalError ℚ := do
    let s ← (List.range' 0 n.toNat).foldlM
      (fun acc (i : Nat) => do
        let v ← f (st.lowerBound + ((i : ℚ) + 0.5) * h)
        pure (acc + v))
      0
    pure (h * s)
  (r, st)

/-- The value returned by `simpsonsRule()`. -/
def simpsonsRule (ops : MathOps) (st : IntState) : Except EvalError ℚ :=
  (simpsonsRuleM ops st).1

/-- Running parenthesis depth goes negative at some close-parenthesis:
scanning the characters with a starting depth `pc`, some `')'` is reached
when the depth is already 0 (all other characters leave the depth alone). -/
def depthGoesNeg : List Char → Int → Bool
  | [], _ => false
  | c :: cs, pc =>
    if c = '(' then depthGoesNeg cs (pc + 1)
    else if c = ')' then decide (pc - 1 < 0) || depthGoesNeg cs (pc - 1)
    else depthGoesNeg cs pc

/-- Net parenthesis balance of a character list: open minus close count. -/
def balanceOf : List Char → Int
  | [] => 0
  | c :: cs =>
    (if c = '(' then 1 else if c = ')' then -1 else 0) + balanceOf cs

/-- Number of `'('` characters on the operator stack. -/
def openCount : List Char → Int
  | [] => 0
  | c :: r => (if c = '(' then 1 else 0) + openCount r

/-- The recognized function names of the registry. -/
def fnNames : List String := ["sin", "cos", "tan", "log", "ln", "sqrt", "abs", "exp"]

/-- Skip whitespace between tokens. -/
def skipWs (cs : List Char) : List Char := cs.dropWhile Char.isWhitespace

mutual

/-- Modelled from the spec: the input grammar of the external-interface
section, used only to state what "syntactically valid (per the input
grammar)" means (the source code has no such check). Grammar:
`expr := term (('+' | '-') term)*`, `term := factor (('*' | '/') factor)*`,
`factor := number | 'x' | constant | function '(' expr ')' | '(' expr ')'`,
and the same section makes `^` bind tighter than `*`,`/` and
right-associative, giving the production `power := factor ('^' power)?` with
`term := power (('*' | '/') power)*`; numbers are digits with an optional
single decimal point, identifiers are case-insensitive, whitespace may
separate tokens. A recursive-descent recognizer with explicit fuel; each
production either consumes a character or moves down the
`expr → term → power → factor` chain, so fuel `4·length + 8` never runs out
on well-formed input. Returns the unconsumed remainder. -/
def specFactor : Nat → List Char → Option (List Char)
  | 0, _ => none
  | fuel + 1, cs =>
    match skipWs cs with
    | [] => none
    | c :: r =>
      if c.isDigit then
        let r1 := (c :: r).dropWhile Char.isDigit
        match r1 with
        | '.' :: r2 =>
          if firstIsDigit r2 then some (r2.dropWhile Char.isDigit) else some r1
        | _ => some r1
      else if c = '(' then
        match specExpr fuel r with
        | none => none
        | some r1 =>
          match skipWs r1 with
          | ')' :: r2 => some r2
          | _ => none
      else if c.isAlpha then
        let idf := ((c :: r).takeWhile Char.isAlpha).map Char.toLower
        let r1 := (c :: r).dropWhile Char.isAlpha
        if idf = ['x'] then some r1
        else if idf = ['p', 'i'] ∨ idf = ['e'] then some r1
        else if fnNames.contains (String.mk idf) then
          match skipWs r1 with
          | '(' :: r2 =>
            match specExpr fuel r2 with
            | none => none
            | some r3 =>
              match skipWs r3 with
              | ')' :: r4 => some r4
              | _ => none
          | _ => none
        else none
      else none

/-- Modelled from the spec: `power := factor ('^' power)?`
(right-associative). -/
def specPower : Nat → List Char → Option (List Char)
  | 0, _ => none
  | fuel + 1, cs =>
    match specFactor fuel cs with
    | none => none
    | some r =>
      match skipWs r with
      | '^' :: r1 =>
        match specPower fuel r1 with
        | none => none
        | some r2 => some r2
      | _ => some r

/-- Modelled from the spec: `term := power (('*' | '/') power)*`. -/
def specTerm : Nat → List Char → Option (List Char)
  | 0, _ => none
  | fuel + 1, cs =>
    match specPower fuel cs with
    | none => none
    | some r => specTermTail fuel r

/-- Modelled from the spec: the `(('*' | '/') power)*` tail. -/
def specTermTail : Nat → List Char → Option (List Char)
  | 0, _ => none
  | fuel + 1, cs =>
    match skipWs cs with
    | c :: r =>
      if c = '*' ∨ c = '/' then
        match specPower fuel r with
        | none => none
        | some r1 => specTermTail fuel r1
      else some cs
    | [] => some cs

/-- Modelled from the spec: `expr := term (('+' | '-') term)*`. -/
def specExpr : Nat → List Char → Option (List Char)
  | 0, _ => none
  | fuel + 1, cs =>
    match specTerm fuel cs with
    | none => none
    | some r => specExprTail fuel r

/-- Modelled from the spec: the `(('+' | '-') term)*` tail. -/
def specExprTail : Nat → List Char → Option (List Char)
  | 0, _ => none
  | fuel + 1, cs =>
    match skipWs cs with
    | c :: r =>
      if c = '+' ∨ c = '-' then
        match specTerm fuel r with
        | none => none
        | some r1 => specExprTail fuel r1
      else some cs
    | [] => some cs

end

/-- Modelled from the spec: a string is syntactically valid per the input
grammar when it derives from `expr` with only whitespace left over. -/
def specValid (s : String) : Bool :=
  match specExpr (4 * s.length + 8) s.toList with
  | some r => (skipWs r).isEmpty
  | none => false

/-- The corrected subdivision count of the claim: `n' = n` when `n` is even
and `n' = n + 1` when `n` is odd (matching the local `if (n % 2 != 0) n++`
of `simpsonsRule`). -/
def simpN (n : Int) : Int := if n % 2 ≠ 0 then n + 1 else n

/-- The step `h = (upper - lower) / n'` of the claim. -/
def simpH (lo up : ℚ) (n' : Int) : ℚ := (up - lo) / (n' : ℚ)

/-- The Simpson weight of the claim: `w i = 4` for odd `i`, `2` for even. -/
def simpW (i : Nat) : ℚ := if i % 2 = 1 then 4 else 2

/-- The closed Simpson formula of the claim:
`(h/3) * (g(lower) + g(upper) + sum over 0 < i < n' of w i * g(lower + i*h))`. -/
def simpFormula (g : ℚ → ℚ) (lo up : ℚ) (n' : Int) : ℚ :=
  (simpH lo up n' / 3)
    * (g lo + g up
       + Finset.sum (Finset.Ico 1 n'.toNat)
           (fun i => simpW i * g (lo + (i : ℚ) * simpH lo up n')))

deriving instance DecidableEq for Except

/-- C4: During evaluation, a `'/'` operator step with two operands available
fails with `DivisionByZero` exactly when the divisor `b` (the first value
popped) has magnitude below the tolerance `1e-15`, and otherwise pushes the
exact quotient; moreover the program parsed from `"1/x"` evaluated at
`x = 0` fails with `DivisionByZero`. -/
theorem c4_division_tolerance :
    (∀ (ops : MathOps) (x a b : ℚ) (r : List ℚ),
      evalStep ops x (b :: a :: r) (.op '/')
        = if |b| < 1 / 10 ^ 15 then .error .divisionByZero
          else .ok ((a / b) :: r))
    ∧ toRPN "1/x" = .ok [PTok.num "1", PTok.var, PTok.op '/']
    ∧ (∀ ops : MathOps, evaluate ops [PTok.num "1", PTok.var, PTok.op '/'] 0
        = .error .divisionByZero) := by
  refine ⟨fun ops x a b r => rfl, by simp +decide [toRPN, i2p, drainStack, popOps, firstIsDigit, numChar, isOpChar, precOf], fun ops => ?_⟩
  have h1 : stod "1" = 1 := by simp +decide [stod, digitsVal, List.takeWhile, List.dropWhile]
  simp [evaluate, runPost, evalStep, isOpChar, h1, tol, Bind.bind, Except.bind]

/-- C5: An `ApplyFunction` step for `log` or `ln` with an operand available
fails with a `DomainError` exactly when the operand is not strictly
positive, for `sqrt` exactly when it is negative; `sin`, `cos`, `tan`,
`abs` and `exp` never fail once an operand is present; and each of the
eight registry functions fails with an `EvalError` (a missing-argument
error) when the value stack is empty. -/
theorem c5_function_domains :
    ∀ (ops : MathOps) (x a : ℚ) (r : List ℚ),
      (evalStep ops x (a :: r) (.func "log")
        = if a ≤ 0 then .error (.domainErr "log") else .ok (ops.log10Q a :: r))
      ∧ (evalStep ops x (a :: r) (.func "ln")
        = if a ≤ 0 then .error (.domainErr "ln") else .ok (ops.logQ a :: r))
      ∧ (evalStep ops x (a :: r) (.func "sqrt")
        = if a < 0 then .error (.domainErr "sqrt") else .ok (ops.sqrtQ a :: r))
      ∧ evalStep ops x (a :: r) (.func "sin") = .ok (ops.sinQ a :: r)
      ∧ evalStep ops x (a :: r) (.func "cos") = .ok (ops.cosQ a :: r)
      ∧ evalStep ops x (a :: r) (.func "tan") = .ok (ops.tanQ a :: r)
      ∧ evalStep ops x (a :: r) (.func "abs") = .ok (|a| :: r)
      ∧ evalStep ops x (a :: r) (.func "exp") = .ok (ops.expQ a :: r)
      ∧ evalStep ops x [] (.func "sin") = .error (.missingArg "sin")
      ∧ evalStep ops x [] (.func "cos") = .error (.missingArg "cos")
      ∧ evalStep ops x [] (.func "tan") = .error (.missingArg "tan")
      ∧ evalStep ops x [] (.func "log") = .error (.missingArg "log")
      ∧ evalStep ops x [] (.func "ln") = .error (.missingArg "ln")
      ∧ evalStep ops x [] (.func "sqrt") = .error (.missingArg "sqrt")
      ∧ evalStep ops x [] (.func "abs") = .error (.missingArg "abs")
      ∧ evalStep ops x [] (.func "exp") = .error (.missingArg "exp") :=
  fun _ _ _ _ =>
    ⟨rfl, rfl, rfl, rfl, rfl, rfl, rfl, rfl,
     rfl, rfl, rfl, rfl, rfl, rfl, rfl, rfl⟩

/-- C9: The three quadrature methods are `const`: each returns the stored
state unchanged; in particular Simpson's even-count correction only
affects a local copy, so a stored odd subdivision count is still odd
afterwards and a repeated call computes the same value. -/
theorem c9_frame :
    ∀ (ops : MathOps) (st : IntState),
      (trapezoidalRuleM ops st).2 = st
      ∧ (simpsonsRuleM ops st).2 = st
      ∧ (midpointRuleM ops st).2 = st
      ∧ (st.subdivisions % 2 = 1 →
          ((simpsonsRuleM ops st).2).subdivisions % 2 = 1
          ∧ simpsonsRule ops ((simpsonsRuleM ops st).2) = simpsonsRule ops st) :=
  fun _ _ => ⟨rfl, rfl, rfl, fun h => ⟨h, rfl⟩⟩

/-- Witness for C9 at a concrete state with an odd stored count. -/
theorem c9_frame_witness :
    ((⟨[], 0, 1, 3⟩ : IntState).subdivisions % 2 = 1)
    ∧ ((simpsonsRuleM dops ⟨[], 0, 1, 3⟩).2).subdivisions % 2 = 1
    ∧ simpsonsRule dops ((simpsonsRuleM dops ⟨[], 0, 1, 3⟩).2)
        = simpsonsRule dops ⟨[], 0, 1, 3⟩ :=
  ⟨by decide,
   ((c9_frame dops ⟨[], 0, 1, 3⟩).2.2.2 (by decide)).1,
   ((c9_frame dops ⟨[], 0, 1, 3⟩).2.2.2 (by decide)).2⟩

/-- C10: When the program finishes with at least one value on the stack the
evaluator returns the topmost value with no error; the "no result computed"
error occurs exactly when the final stack is empty. The program parsed from
`"x x"` finishes with two values and evaluates without error to the top
one, and the empty program (parsed from the empty or all-whitespace
expression) gives the no-result error. -/
theorem c10_top_of_stack :
    (∀ (ops : MathOps) (x : ℚ) (p : List PTok) (v : ℚ) (rest : List ℚ),
      runPost ops x p = .ok (v :: rest) → evaluate ops p x = .ok v)
    ∧ (∀ (ops : MathOps) (x : ℚ) (p : List PTok),
      runPost ops x p = .ok [] → evaluate ops p x = .error .noResult)
    ∧ toRPN "x x" = .ok [PTok.var, PTok.var]
    ∧ (∀ x : ℚ, runPost dops x [PTok.var, PTok.var] = .ok [x, x]
        ∧ evaluate dops [PTok.var, PTok.var] x = .ok x)
    ∧ toRPN "" = .ok []
    ∧ toRPN "  " = .ok []
    ∧ (∀ x : ℚ, evaluate dops [] x = .error .noResult) := by
  refine ⟨fun ops x p v rest h => ?_, fun ops x p h => ?_, ?_, fun x => ⟨rfl, rfl⟩, ?_, ?_, fun x => rfl⟩
  · simp only [evaluate, h]
  · simp only [evaluate, h]
  · simp +decide [toRPN, i2p, drainStack]
  · simp +decide [toRPN, i2p, drainStack]
  · simp +decide [toRPN, i2p, drainStack]

/-- Witness for C10 at the program parsed from `"x x"` and `x = 5`. -/
theorem c10_top_of_stack_witness :
    runPost dops 5 [PTok.var, PTok.var] = .ok [5, 5]
    ∧ evaluate dops [PTok.var, PTok.var] 5 = .ok 5
    ∧ runPost dops 5 [] = .ok []
    ∧ evaluate dops [] 5 = .error .noResult :=
  ⟨rfl, c10_top_of_stack.1 dops 5 [PTok.var, PTok.var] 5 [5] rfl, rfl,
   c10_top_of_stack.2.1 dops 5 [] rfl⟩

/-- C7: After any sequence of `setBounds` / `setSubdivisions` calls with
arbitrary arguments, starting from the constructed integrator, the stored
state satisfies `lowerBound ≤ upperBound` and `subdivisions ≥ 1`
(`setBounds` swaps a reversed pair, `setSubdivisions` clamps to 1). -/
theorem c7_config_invariant :
    ∀ cmds : List Cmd,
      (applyCmds initIntegrator cmds).lowerBound
        ≤ (applyCmds initIntegrator cmds).upperBound
      ∧ 1 ≤ (applyCmds initIntegrator cmds).subdivisions := by
  have step : ∀ (st : IntState) (c : Cmd),
      st.lowerBound ≤ st.upperBound → 1 ≤ st.subdivisions →
      (applyCmd st c).lowerBound ≤ (applyCmd st c).upperBound
      ∧ 1 ≤ (applyCmd st c).subdivisions := by
    intro st c h1 h2
    cases c with
    | bounds l u =>
      simp only [applyCmd, setBounds]
      split
      · next h => exact ⟨le_of_lt h, h2⟩
      · next h => exact ⟨le_of_not_lt h, h2⟩
    | subs n =>
      simp only [applyCmd, setSubdivisions]
      refine ⟨h1, ?_⟩
      split
      · exact le_refl 1
      · next h => omega
  have key : ∀ (cmds : List Cmd) (st : IntState),
      st.lowerBound ≤ st.upperBound → 1 ≤ st.subdivisions →
      (applyCmds st cmds).lowerBound ≤ (applyCmds st cmds).upperBound
      ∧ 1 ≤ (applyCmds st cmds).subdivisions := by
    intro cmds
    induction cmds with
    | nil => intro st h1 h2; exact ⟨h1, h2⟩
    | cons c cmds ih =>
      intro st h1 h2
      have hc := step st c h1 h2
      exact ih (applyCmd st c) hc.1 hc.2
  intro cmds
  exact key cmds initIntegrator (by norm_num [initIntegrator]) (by norm_num [initIntegrator])

/-- C2 counterexample: `'@'` belongs to none of the recognized lexical
classes, yet parsing `"x@"` does not fail — the character is silently
skipped and the program for `"x"` is produced. -/
theorem c2_counterexample :
    ('@'.isDigit = false ∧ '@'.isAlpha = false ∧ '@'.isWhitespace = false
      ∧ '@' ≠ '.' ∧ '@' ≠ '(' ∧ '@' ≠ ')' ∧ isOpChar '@' = false)
    ∧ toRPN "x@" = .ok [PTok.var] := by
  refine ⟨by decide, ?_⟩
  simp +decide [toRPN, i2p, drainStack]

/-- C2 amended: a character in no recognized lexical class (not a digit,
letter, operator, parenthesis, whitespace or decimal point) is silently
skipped by `infixToPostfix`: the parse continues on the remaining input
exactly as if the character were absent, and no error is raised. -/
theorem c2_amended :
    ∀ (c : Char) (cs stk : List Char) (pc : Int),
      c.isWhitespace = false → c.isDigit = false → c.isAlpha = false →
      c ≠ '.' → c ≠ '(' → c ≠ ')' → isOpChar c = false →
      i2p (c :: cs) stk pc = i2p cs stk pc := by
  intro c cs stk pc hws hd ha hdot hop hcp hoper
  have hx : ¬(c = 'x' ∨ c = 'X') := by
    rintro (rfl | rfl) <;> simp at ha
  rw [i2p]
  simp [hws, hd, ha, hdot, hop, hcp, hoper, hx]

/-- Witness for C2 amended at `c = '@'` with input remainder `"1"`. -/
theorem c2_amended_witness :
    ('@'.isWhitespace = false ∧ '@'.isDigit = false ∧ '@'.isAlpha = false
      ∧ '@' ≠ '.' ∧ '@' ≠ '(' ∧ '@' ≠ ')' ∧ isOpChar '@' = false)
    ∧ i2p ('@' :: ['1']) [] 0 = i2p ['1'] [] 0 :=
  ⟨by decide,
   c2_amended '@' ['1'] [] 0 (by decide) (by decide) (by decide)
     (by decide) (by decide) (by decide) (by decide)⟩

/-- C8 counterexample: the parser does not emit the double value of π for
`pi`; it emits the decimal literal `"3.141593"` produced by
`std::to_string(M_PI)` (6 fractional digits), whose value differs from π —
and likewise `"2.718282"` for `e`, whose value differs from Euler's
number. -/
theorem c8_counterexample :
    toRPN "pi" = .ok [PTok.num "3.141593"]
    ∧ evaluate dops [PTok.num "3.141593"] 0 = .ok (stod "3.141593")
    ∧ ((stod "3.141593" : ℚ) : ℝ) ≠ Real.pi
    ∧ toRPN "e" = .ok [PTok.num "2.718282"]
    ∧ evaluate dops [PTok.num "2.718282"] 0 = .ok (stod "2.718282")
    ∧ ((stod "2.718282" : ℚ) : ℝ) ≠ Real.exp 1 := by
  have hpi : stod "3.141593" = 3141593 / 1000000 := by
    simp +decide [stod, digitsVal, List.takeWhile, List.dropWhile]
    norm_num
  have he : stod "2.718282" = 2718282 / 1000000 := by
    simp +decide [stod, digitsVal, List.takeWhile, List.dropWhile]
    norm_num
  refine ⟨?_, rfl, ?_, ?_, rfl, ?_⟩
  · simp +decide [toRPN, i2p, drainStack]
  · rw [hpi]
    intro h
    have hb := Real.pi_lt_d6
    rw [← h] at hb
    norm_num at hb
  · simp +decide [toRPN, i2p, drainStack]
  · rw [he]
    intro h
    have hb := Real.exp_one_lt_d9
    rw [← h] at hb
    norm_num at hb

/-- C8 amended: parsing `pi` (resp. `e`) emits, at parse time, a push of
the six-fractional-digit decimal formatting of the constant — the literal
`3.141593` (resp. `2.718282`) — and evaluating the resulting program at any
`x` yields exactly the rational `3141593/1000000` (resp. `2718282/1000000`),
an approximation of the constant rather than its double value. -/
theorem c8_amended :
    ∀ (ops : MathOps) (x : ℚ),
      toRPN "pi" = .ok [PTok.num "3.141593"]
      ∧ evaluate ops [PTok.num "3.141593"] x = .ok (3141593 / 1000000)
      ∧ toRPN "e" = .ok [PTok.num "2.718282"]
      ∧ evaluate ops [PTok.num "2.718282"] x = .ok (2718282 / 1000000) := by
  intro ops x
  have hpi : stod "3.141593" = 3141593 / 1000000 := by
    simp +decide [stod, digitsVal, List.takeWhile, List.dropWhile]
    norm_num
  have he : stod "2.718282" = 2718282 / 1000000 := by
    simp +decide [stod, digitsVal, List.takeWhile, List.dropWhile]
    norm_num
  refine ⟨?_, ?_, ?_, ?_⟩
  · simp +decide [toRPN, i2p, drainStack]
  · simp [evaluate, runPost, evalStep, hpi]
  · simp +decide [toRPN, i2p, drainStack]
  · simp [evaluate, runPost, evalStep, he]

/-- C1 counterexample: `"x y"` is accepted by the parser (no `ParseError`),
its program executes from the empty stack to exactly one value (the unknown
identifier token `y` is ignored by the evaluator), yet `"x y"` is not
syntactically valid per the input grammar — so acceptance plus a one-value
run does not coincide with grammatical validity, and the malformed input is
not rejected at parse time. -/
theorem c1_counterexample :
    toRPN "x y" = .ok [PTok.var, PTok.func "y"]
    ∧ runPost dops 5 [PTok.var, PTok.func "y"] = .ok [5]
    ∧ specValid "x y" = false
    ∧ ¬ ((runPost dops 5 [PTok.var, PTok.func "y"] = .ok [5])
          ↔ (specValid "x y" = true ∧ "x y" ≠ "")) := by
  refine ⟨?_, rfl, by decide, ?_⟩
  · simp +decide [toRPN, i2p, drainStack, takeFuncName]
  · intro h
    exact absurd (h.mp rfl).1 (by decide)

/-- Helper: binding a successful `Except` computation applies the
continuation directly. -/
theorem except_bind_ok {e a b : Type} (v : a) (f : a → Except e b) :
    (Except.ok v : Except e a) >>= f = f v := rfl

/-- Helper: `pure` in the `Except` monad is `Except.ok`. -/
theorem except_pure {e a : Type} (v : a) : (pure v : Except e a) = .ok v := rfl

/-- Helper: a fold in the `Except` monad whose body always succeeds equals
the pure fold. -/
theorem foldlM_ok_of_ok (F : ℚ → ℕ → ℚ)
    (body : ℚ → ℕ → Except EvalError ℚ)
    (hb : ∀ acc i, body acc i = .ok (F acc i)) :
    ∀ (l : List ℕ) (init : ℚ), l.foldlM body init = .ok (l.foldl F init) := by
  intro l
  induction l with
  | nil => intro init; rfl
  | cons a l ih =>
    intro init
    rw [List.foldlM_cons, hb, List.foldl_cons]
    simp only [except_bind_ok]
    exact ih (F init a)

/-- Helper: a left fold accumulating `+ t i` is the initial value plus the
sum of the mapped list. -/
theorem foldl_add_eq (t : ℕ → ℚ) :
    ∀ (l : List ℕ) (init : ℚ),
      l.foldl (fun acc i => acc + t i) init = init + (l.map t).sum := by
  intro l
  induction l with
  | nil => intro init; simp
  | cons a l ih =>
    intro init
    rw [List.foldl_cons, List.map_cons, List.sum_cons, ih]
    ring

/-- Helper: the sum of `t` over `range' s m` is the sum of `t (s + j)` over
`j < m`. -/
theorem range'_map_sum (t : ℕ → ℚ) :
    ∀ (m s : ℕ),
      ((List.range' s m).map t).sum
        = Finset.sum (Finset.range m) (fun j => t (s + j)) := by
  intro m
  induction m with
  | zero => intro s; simp
  | succ m ih =>
    intro s
    rw [List.range'_succ, List.map_cons, List.sum_cons, ih (s + 1),
      Finset.sum_range_succ' (fun j => t (s + j)) m]
    simp only [Nat.add_zero]
    rw [add_comm]
    congr 1
    apply Finset.sum_congr rfl
    intro j _
    congr 1
    omega

/-- C6: For bounds `lower ≤ upper` and a stored count `n ≥ 1`, when every
evaluation succeeds and computes `g`, `simpsonsRule` returns exactly the
claim's formula: with `n' = n` (`n` even) or `n + 1` (`n` odd) and
`h = (upper - lower)/n'`, the value `(h/3) * (g lower + g upper +
sum over 0 < i < n' of w i * g (lower + i*h))`, `w i = 4` for odd `i` and
`2` for even `i`. -/
theorem c6_simpson_formula :
    ∀ (ops : MathOps) (st : IntState) (g : ℚ → ℚ),
      st.lowerBound ≤ st.upperBound →
      1 ≤ st.subdivisions →
      (∀ y : ℚ, evaluate ops st.prog y = .ok (g y)) →
      simpsonsRule ops st
        = .ok (simpFormula g st.lowerBound st.upperBound (simpN st.subdivisions)) := by
  intro ops st g _ hn hEval
  unfold simpsonsRule simpsonsRuleM
  simp only [hEval, except_bind_ok, except_pure]
  set n' : Int := if st.subdivisions % 2 ≠ 0 then st.subdivisions + 1 else st.subdivisions
    with hdefn
  have hn' : 1 ≤ n' := by rw [hdefn]; split <;> omega
  set lo := st.lowerBound with hdeflo
  set up := st.upperBound with hdefup
  set h : ℚ := (up - lo) / (n' : ℚ) with hdefh
  rw [foldlM_ok_of_ok
    (fun acc i => acc + (if i % 2 = 0 then 2 * g (lo + (i : ℚ) * h)
                         else 4 * g (lo + (i : ℚ) * h)))
    _ (fun _ _ => rfl)]
  simp only [except_bind_ok]
  congr 1
  unfold simpFormula simpH simpW simpN
  rw [← hdefn, ← hdefh]
  congr 1
  rw [foldl_add_eq (fun i => if i % 2 = 0 then 2 * g (lo + (i : ℚ) * h)
                             else 4 * g (lo + (i : ℚ) * h)),
    range'_map_sum]
  congr 1
  rw [Finset.sum_Ico_eq_sum_range]
  have hm : n'.toNat - 1 = (n' - 1).toNat := by omega
  rw [← hm]
  apply Finset.sum_congr rfl
  intro j _
  rcases Nat.even_or_odd j with hj | hj
  · have hj' : j % 2 = 0 := Nat.even_iff.mp hj
    have h1 : (1 + j) % 2 = 1 := by omega
    have h2 : ¬((1 + j) % 2 = 0) := by omega
    simp [h1, h2]
  · have hj' : j % 2 = 1 := Nat.odd_iff.mp hj
    have h1 : (1 + j) % 2 = 0 := by omega
    have h2 : ¬((1 + j) % 2 = 1) := by omega
    simp [h1, h2]

/-- Witness for C6 at the program parsed from the bare variable, `g = id`,
bounds `[0, 1]` and 2 subdivisions. -/
theorem c6_simpson_formula_witness :
    ((⟨[PTok.var], 0, 1, 2⟩ : IntState).lowerBound
      ≤ (⟨[PTok.var], 0, 1, 2⟩ : IntState).upperBound)
    ∧ (1 ≤ (⟨[PTok.var], 0, 1, 2⟩ : IntState).subdivisions)
    ∧ simpsonsRule dops ⟨[PTok.var], 0, 1, 2⟩
        = .ok (simpFormula id 0 1 (simpN 2)) :=
  ⟨by norm_num, by norm_num,
   c6_simpson_formula dops ⟨[PTok.var], 0, 1, 2⟩ id (by norm_num) (by norm_num)
     (fun _ => rfl)⟩

/-- Helper: `openCount` is nonnegative. -/
theorem openCount_nonneg : ∀ l : List Char, 0 ≤ openCount l := by
  intro l
  induction l with
  | nil => simp [openCount]
  | cons c r ih =>
    rw [openCount]
    split <;> omega

/-- Helper: `openCount` over an append. -/
theorem openCount_append : ∀ l r : List Char,
    openCount (l ++ r) = openCount l + openCount r := by
  intro l r
  induction l with
  | nil => simp [openCount]
  | cons c t ih =>
    rw [List.cons_append, openCount, openCount, ih]
    omega

/-- Helper: a list without `'('` has `openCount` zero. -/
theorem openCount_eq_zero (l : List Char) (h : ∀ a ∈ l, a ≠ '(') :
    openCount l = 0 := by
  induction l with
  | nil => rfl
  | cons c t ih =>
    rw [openCount, if_neg (h c (List.mem_cons_self c t))]
    rw [ih (fun a ha => h a (List.mem_cons_of_mem c ha))]
    omega

/-- Helper: a list with `openCount` zero contains no `'('`. -/
theorem not_open_mem_of_openCount_eq_zero :
    ∀ l : List Char, openCount l = 0 → ∀ a ∈ l, a ≠ '(' := by
  intro l
  induction l with
  | nil => intro _ a ha; cases ha
  | cons c t ih =>
    intro h a ha
    have hnn := openCount_nonneg t
    rw [openCount] at h
    rcases List.mem_cons.mp ha with rfl | ha'
    · intro rfl'
      rw [rfl', if_pos rfl] at h
      omega
    · refine ih ?_ a ha'
      split at h <;> omega

/-- Helper: characters that are neither parenthesis leave `balanceOf`
unchanged when prepended. -/
theorem balanceOf_append (l r : List Char) (h : ∀ a ∈ l, a ≠ '(' ∧ a ≠ ')') :
    balanceOf (l ++ r) = balanceOf r := by
  induction l with
  | nil => simp
  | cons c t ih =>
    rw [List.cons_append, balanceOf]
    have hc := h c (List.mem_cons_self c t)
    rw [if_neg hc.1, if_neg hc.2, ih (fun a ha => h a (List.mem_cons_of_mem c ha))]
    omega

/-- Helper: characters that are neither parenthesis leave `depthGoesNeg`
unchanged when prepended. -/
theorem depthGoesNeg_append (l r : List Char) (h : ∀ a ∈ l, a ≠ '(' ∧ a ≠ ')') :
    ∀ pc : Int, depthGoesNeg (l ++ r) pc = depthGoesNeg r pc := by
  induction l with
  | nil => intro pc; simp
  | cons c t ih =>
    intro pc
    rw [List.cons_append, depthGoesNeg]
    have hc := h c (List.mem_cons_self c t)
    rw [if_neg hc.1, if_neg hc.2, ih (fun a ha => h a (List.mem_cons_of_mem c ha)) pc]

/-- Helper: lowercasing a letter yields a code point in `[97, 122]`. -/
theorem toLower_toNat_bounds (c : Char) (h : c.isAlpha = true) :
    97 ≤ c.toLower.toNat ∧ c.toLower.toNat ≤ 122 := by
  have hval : (65 ≤ c.toNat ∧ c.toNat ≤ 90) ∨ (97 ≤ c.toNat ∧ c.toNat ≤ 122) := by
    simp [Char.isAlpha, Char.isUpper, Char.isLower] at h
    rcases h with h | h
    · exact Or.inl ⟨h.1, h.2⟩
    · exact Or.inr ⟨h.1, h.2⟩
  rcases hval with ⟨h1, h2⟩ | ⟨h1, h2⟩
  · have hc : c.toLower = Char.ofNat (c.toNat + 32) := by
      simp only [Char.toLower]
      rw [if_pos ⟨h1, h2⟩]
    have hv : (c.toNat + 32).isValidChar := Or.inl (by omega)
    have ht : (Char.ofNat (c.toNat + 32)).toNat = c.toNat + 32 := by
      unfold Char.ofNat
      rw [dif_pos hv]
      exact rfl
    rw [hc, ht]
    omega
  · have hc : c.toLower = c := by
      simp only [Char.toLower]
      rw [if_neg]
      omega
    rw [hc]
    exact ⟨h1, h2⟩

/-- Helper: lowercasing a letter never yields a parenthesis. -/
theorem toLower_ne_parens (c : Char) (h : c.isAlpha = true) :
    c.toLower ≠ '(' ∧ c.toLower ≠ ')' := by
  have hb := toLower_toNat_bounds c h
  constructor
  · intro heq
    rw [heq] at hb
    revert hb
    decide
  · intro heq
    rw [heq] at hb
    revert hb
    decide

/-- Helper: a digit-or-dot character is not a parenthesis. -/
theorem numChar_ne_parens (c : Char) (h : numChar c = true) :
    c ≠ '(' ∧ c ≠ ')' := by
  constructor
  · rintro rfl
    exact absurd h (by decide)
  · rintro rfl
    exact absurd h (by decide)

/-- Helper: a letter is not a parenthesis. -/
theorem alpha_ne_parens (c : Char) (h : c.isAlpha = true) :
    c ≠ '(' ∧ c ≠ ')' := by
  constructor
  · rintro rfl
    exact absurd h (by decide)
  · rintro rfl
    exact absurd h (by decide)

/-- Helper: a whitespace character is not a parenthesis. -/
theorem ws_ne_parens (c : Char) (h : c.isWhitespace = true) :
    c ≠ '(' ∧ c ≠ ')' := by
  constructor
  · rintro rfl
    exact absurd h (by decide)
  · rintro rfl
    exact absurd h (by decide)

/-- Helper: an operator character is not a parenthesis. -/
theorem op_ne_parens (c : Char) (h : isOpChar c = true) :
    c ≠ '(' ∧ c ≠ ')' := by
  rcases (by simpa [isOpChar] using h : c = '+' ∨ c = '-' ∨ c = '*' ∨ c = '/' ∨ c = '^')
    with rfl | rfl | rfl | rfl | rfl <;> exact ⟨by decide, by decide⟩

/-- Helper: with at least one `'('` on the stack and no `')'` anywhere in
it, the close-parenthesis pop loop succeeds, removes exactly one `'('`, and
leaves a stack still free of `')'`. -/
theorem emitUntilOpen_spec :
    ∀ stk : List Char, 1 ≤ openCount stk → (∀ a ∈ stk, a ≠ ')') →
      ∃ ts stk', emitUntilOpen stk = .ok (ts, stk')
        ∧ openCount stk' = openCount stk - 1
        ∧ (∀ a ∈ stk', a ≠ ')') := by
  intro stk
  induction stk using emitUntilOpen.induct with
  | case1 =>
    intro h _
    rw [openCount] at h
    omega
  | case2 r =>
    intro _ hmem
    refine ⟨[], r, ?_, ?_, ?_⟩
    · rw [emitUntilOpen]
      simp
    · rw [openCount, if_pos rfl]
      omega
    · intro a ha
      exact hmem a (List.mem_cons_of_mem _ ha)
  | case3 r hne ih =>
    intro hcount hmem
    have hne' : ('#' : Char) ≠ '(' := by decide
    have htd := List.takeWhile_append_dropWhile Char.isAlpha r
    have hoc : openCount (r.dropWhile Char.isAlpha) = openCount r := by
      have hz : openCount (r.takeWhile Char.isAlpha) = 0 :=
        openCount_eq_zero _ (fun a ha =>
          (alpha_ne_parens a (List.mem_takeWhile_imp ha)).1)
      have hap := openCount_append (r.takeWhile Char.isAlpha) (r.dropWhile Char.isAlpha)
      rw [htd] at hap
      omega
    have hmr : ∀ a ∈ r.dropWhile Char.isAlpha, a ≠ ')' := fun a ha =>
      hmem a (List.mem_cons_of_mem _ ((List.dropWhile_sublist Char.isAlpha).subset ha))
    have hcr : 1 ≤ openCount (r.dropWhile Char.isAlpha) := by
      rw [openCount, if_neg hne'] at hcount
      omega
    obtain ⟨ts, stk', hok, hcnt, hmem'⟩ := ih hcr hmr
    refine ⟨PTok.func (takeFuncName r) :: ts, stk', ?_, ?_, hmem'⟩
    · rw [emitUntilOpen, if_neg hne', if_pos rfl, hok]
      rfl
    · rw [hcnt, hoc, openCount, if_neg hne']
      omega
  | case4 c r hne hsh ih =>
    intro hcount hmem
    have hcr : 1 ≤ openCount r := by
      rw [openCount, if_neg hne] at hcount
      omega
    have hmr : ∀ a ∈ r, a ≠ ')' := fun a ha => hmem a (List.mem_cons_of_mem _ ha)
    obtain ⟨ts, stk', hok, hcnt, hmem'⟩ := ih hcr hmr
    refine ⟨PTok.op c :: ts, stk', ?_, ?_, hmem'⟩
    · rw [emitUntilOpen, if_neg hne, if_neg hsh, hok]
      rfl
    · rw [hcnt, openCount, if_neg hne]
      omega

/-- Helper: the function-marker check after a close-parenthesis preserves
the `'('` count and introduces no `')'`. -/
theorem afterFuncMark_spec (l : List Char) (hmem : ∀ a ∈ l, a ≠ ')') :
    openCount (afterFuncMark l).2 = openCount l
    ∧ (∀ a ∈ (afterFuncMark l).2, a ≠ ')') := by
  cases l with
  | nil => exact ⟨rfl, fun a ha => absurd ha (List.not_mem_nil a)⟩
  | cons c r =>
    by_cases hc : c = '#'
    · subst hc
      rw [afterFuncMark, if_pos rfl]
      refine ⟨?_, ?_⟩
      · show openCount (r.dropWhile Char.isAlpha) = openCount ('#' :: r)
        have htd := List.takeWhile_append_dropWhile Char.isAlpha r
        have hz : openCount (r.takeWhile Char.isAlpha) = 0 :=
          openCount_eq_zero _ (fun a ha =>
            (alpha_ne_parens a (List.mem_takeWhile_imp ha)).1)
        have hap := openCount_append (r.takeWhile Char.isAlpha) (r.dropWhile Char.isAlpha)
        rw [htd] at hap
        rw [openCount, if_neg (by decide : ('#' : Char) ≠ '(')]
        omega
      · intro a ha
        exact hmem a (List.mem_cons_of_mem _
          ((List.dropWhile_sublist Char.isAlpha).subset ha))
    · rw [afterFuncMark, if_neg hc]
      exact ⟨rfl, hmem⟩

/-- Helper: the operator pop loop removes no `'('` (it stops there) and its
remaining stack is a suffix of the original, so counts and membership facts
carry over. -/
theorem popOps_spec (c : Char) :
    ∀ stk : List Char,
      openCount (popOps c stk).2 = openCount stk
      ∧ (∀ a ∈ (popOps c stk).2, a ∈ stk) := by
  intro stk
  induction stk with
  | nil => exact ⟨rfl, fun a ha => ha⟩
  | cons t r ih =>
    rw [popOps]
    split
    · next hcond =>
      refine ⟨?_, ?_⟩
      · show openCount (popOps c r).2 = openCount (t :: r)
        rw [ih.1, openCount, if_neg hcond.1]
        omega
      · intro a ha
        exact List.mem_cons_of_mem _ (ih.2 a ha)
    · exact ⟨rfl, fun a ha => ha⟩

/-- Helper: a stack with no parentheses at all drains without error. -/
theorem drainStack_ok :
    ∀ stk : List Char, openCount stk = 0 → (∀ a ∈ stk, a ≠ ')') →
      ∃ ts, drainStack stk = .ok ts := by
  intro stk
  induction stk using drainStack.induct with
  | case1 =>
    intro _ _
    refine ⟨[], ?_⟩
    rw [drainStack]
  | case2 c r hpar =>
    intro hcount hmem
    exfalso
    rcases hpar with hc | hc
    · exact absurd rfl
        (not_open_mem_of_openCount_eq_zero (c :: r) hcount c (List.mem_cons_self c r) ∘
          fun h => hc ▸ h)
    · exact hmem c (List.mem_cons_self c r) hc
  | case3 r hpar ih =>
    intro hcount hmem
    have hcz : openCount (r.dropWhile Char.isAlpha) = 0 := by
      have htd := List.takeWhile_append_dropWhile Char.isAlpha r
      have hz : openCount (r.takeWhile Char.isAlpha) = 0 :=
        openCount_eq_zero _ (fun a ha =>
          (alpha_ne_parens a (List.mem_takeWhile_imp ha)).1)
      have hap := openCount_append (r.takeWhile Char.isAlpha) (r.dropWhile Char.isAlpha)
      rw [htd] at hap
      have hnn := openCount_nonneg (r.dropWhile Char.isAlpha)
      rw [openCount] at hcount
      have hnn2 := openCount_nonneg r
      split at hcount <;> omega
    have hmr : ∀ a ∈ r.dropWhile Char.isAlpha, a ≠ ')' := fun a ha =>
      hmem a (List.mem_cons_of_mem _ ((List.dropWhile_sublist Char.isAlpha).subset ha))
    obtain ⟨ts, hts⟩ := ih hcz hmr
    refine ⟨PTok.func (takeFuncName r) :: ts, ?_⟩
    rw [drainStack, if_neg hpar, if_pos rfl, hts]
    rfl
  | case4 c r hpar hsh ih =>
    intro hcount hmem
    have hcz : openCount r = 0 := by
      have hnn := openCount_nonneg r
      rw [openCount] at hcount
      split at hcount <;> omega
    have hmr : ∀ a ∈ r, a ≠ ')' := fun a ha => hmem a (List.mem_cons_of_mem _ ha)
    obtain ⟨ts, hts⟩ := ih hcz hmr
    refine ⟨PTok.op c :: ts, ?_⟩
    rw [drainStack, if_neg hpar, if_neg hsh, hts]
    rfl

/-- Helper: mapping over a failed `Except` keeps the error. -/
theorem except_map_error {e a b : Type} (f : a → b) (err : e) :
    (Except.error err : Except e a).map f = .error err := rfl

/-- Helper: mapping over a successful `Except` maps the value. -/
theorem except_map_ok {e a b : Type} (f : a → b) (v : a) :
    (Except.ok v : Except e a).map f = .ok (f v) := rfl

/-- Helper: the end-of-input case of the trichotomy. -/
theorem i2p_nil_case (stk : List Char) (pc : Int)
    (hcount : openCount stk = pc) (hmem : ∀ a ∈ stk, a ≠ ')') :
    (depthGoesNeg [] pc = true ∧ i2p [] stk pc = .error .extraClose)
    ∨ (depthGoesNeg [] pc = false ∧ pc + balanceOf [] ≠ 0
        ∧ i2p [] stk pc = .error .missingClose)
    ∨ (depthGoesNeg [] pc = false ∧ pc + balanceOf [] = 0
        ∧ ∃ ts, i2p [] stk pc = .ok ts) := by
  by_cases hpc : pc = 0
  · refine Or.inr (Or.inr ⟨rfl, by rw [balanceOf]; omega, ?_⟩)
    obtain ⟨ts, hts⟩ := drainStack_ok stk (by omega) hmem
    refine ⟨ts, ?_⟩
    rw [i2p, if_neg (by omega : ¬ pc ≠ 0)]
    exact hts
  · refine Or.inr (Or.inl ⟨rfl, by rw [balanceOf]; omega, ?_⟩)
    rw [i2p, if_pos hpc]

/-- The parenthesis trichotomy of `infixToPostfix`: under the stack
invariant (`'('` count equal to `parenCount`, no `')'` stored), the parse
raises the "extra closing" error exactly when the running depth goes
negative at some `')'`, raises the "missing closing" error exactly when the
depth stays nonnegative but ends nonzero, and succeeds otherwise. -/
theorem i2p_paren_cases :
    ∀ (N : ℕ) (cs stk : List Char) (pc : Int),
      cs.length ≤ N → openCount stk = pc → (∀ a ∈ stk, a ≠ ')') →
      (depthGoesNeg cs pc = true ∧ i2p cs stk pc = .error .extraClose)
      ∨ (depthGoesNeg cs pc = false ∧ pc + balanceOf cs ≠ 0
          ∧ i2p cs stk pc = .error .missingClose)
      ∨ (depthGoesNeg cs pc = false ∧ pc + balanceOf cs = 0
          ∧ ∃ ts, i2p cs stk pc = .ok ts) := by
  intro N
  induction N with
  | zero =>
    intro cs stk pc hlen hcount hmem
    have hcs : cs = [] := List.length_eq_zero.mp (Nat.le_zero.mp hlen)
    subst hcs
    exact i2p_nil_case stk pc hcount hmem
  | succ N ih =>
    intro cs stk pc hlen hcount hmem
    cases cs with
    | nil => exact i2p_nil_case stk pc hcount hmem
    | cons c rest =>
      rw [List.length_cons, Nat.succ_le_succ_iff] at hlen
      by_cases h1 : c.isWhitespace = true
      · -- whitespace: skipped
        have hnp := ws_ne_parens c h1
        have hd : depthGoesNeg (c :: rest) pc = depthGoesNeg rest pc := by
          rw [depthGoesNeg, if_neg hnp.1, if_neg hnp.2]
        have hb : balanceOf (c :: rest) = balanceOf rest := by
          rw [balanceOf, if_neg hnp.1, if_neg hnp.2]
          omega
        have hi : i2p (c :: rest) stk pc = i2p rest stk pc := by
          rw [i2p]
          simp [h1]
        rw [hd, hb, hi]
        exact ih rest stk pc hlen hcount hmem
      · by_cases h2 : (c.isDigit || (c = '.' && firstIsDigit rest)) = true
        · -- number literal
          have hnc : numChar c = true := by
            rcases Bool.or_eq_true_iff.mp h2 with hd | hdot
            · exact Bool.or_eq_true_iff.mpr (Or.inl hd)
            · exact Bool.or_eq_true_iff.mpr
                (Or.inr (Bool.and_eq_true_iff.mp hdot).1)
          have hl : ∀ a ∈ c :: rest.takeWhile numChar, a ≠ '(' ∧ a ≠ ')' := by
            intro a ha
            rcases List.mem_cons.mp ha with rfl | ha'
            · exact numChar_ne_parens a hnc
            · exact numChar_ne_parens a (List.mem_takeWhile_imp ha')
          have hsplit : c :: rest = (c :: rest.takeWhile numChar) ++ rest.dropWhile numChar := by
            rw [List.cons_append, List.takeWhile_append_dropWhile]
          have hd : depthGoesNeg (c :: rest) pc
              = depthGoesNeg (rest.dropWhile numChar) pc := by
            rw [hsplit]
            exact depthGoesNeg_append _ _ hl pc
          have hb : balanceOf (c :: rest) = balanceOf (rest.dropWhile numChar) := by
            rw [hsplit]
            exact balanceOf_append _ _ hl
          have hi : i2p (c :: rest) stk pc
              = (i2p (rest.dropWhile numChar) stk pc).map
                  (PTok.num (String.mk (c :: rest.takeWhile numChar)) :: ·) := by
            rw [i2p]
            simp [h1, h2]
          have hlen' : (rest.dropWhile numChar).length ≤ N :=
            le_trans ((List.dropWhile_sublist numChar).length_le) hlen
          rw [hd, hb, hi]
          rcases ih (rest.dropWhile numChar) stk pc hlen' hcount hmem with
            ⟨ha, hb'⟩ | ⟨ha, hb', hc'⟩ | ⟨ha, hb', ts, hc'⟩
          · exact Or.inl ⟨ha, by rw [hb', except_map_error]⟩
          · exact Or.inr (Or.inl ⟨ha, hb', by rw [hc', except_map_error]⟩)
          · exact Or.inr (Or.inr ⟨ha, hb', _, by rw [hc', except_map_ok]⟩)
        · by_cases h3 : c = 'x' ∨ c = 'X'
          · -- the variable
            have hnp : c ≠ '(' ∧ c ≠ ')' := by
              rcases h3 with rfl | rfl <;> exact ⟨by decide, by decide⟩
            have hd : depthGoesNeg (c :: rest) pc = depthGoesNeg rest pc := by
              rw [depthGoesNeg, if_neg hnp.1, if_neg hnp.2]
            have hb : balanceOf (c :: rest) = balanceOf rest := by
              rw [balanceOf, if_neg hnp.1, if_neg hnp.2]
              omega
            have hi : i2p (c :: rest) stk pc
                = (i2p rest stk pc).map (PTok.var :: ·) := by
              rw [i2p]
              simp [h1, h2, h3]
            rw [hd, hb, hi]
            rcases ih rest stk pc hlen hcount hmem with
              ⟨ha, hb'⟩ | ⟨ha, hb', hc'⟩ | ⟨ha, hb', ts, hc'⟩
            · exact Or.inl ⟨ha, by rw [hb', except_map_error]⟩
            · exact Or.inr (Or.inl ⟨ha, hb', by rw [hc', except_map_error]⟩)
            · exact Or.inr (Or.inr ⟨ha, hb', _, by rw [hc', except_map_ok]⟩)
          · by_cases h4 : c.isAlpha = true
            · -- identifier
              have hl : ∀ a ∈ c :: rest.takeWhile Char.isAlpha, a ≠ '(' ∧ a ≠ ')' := by
                intro a ha
                rcases List.mem_cons.mp ha with rfl | ha'
                · exact alpha_ne_parens a h4
                · exact alpha_ne_parens a (List.mem_takeWhile_imp ha')
              have hsplit : c :: rest
                  = (c :: rest.takeWhile Char.isAlpha) ++ rest.dropWhile Char.isAlpha := by
                rw [List.cons_append, List.takeWhile_append_dropWhile]
              have hd : depthGoesNeg (c :: rest) pc
                  = depthGoesNeg (rest.dropWhile Char.isAlpha) pc := by
                rw [hsplit]
                exact depthGoesNeg_append _ _ hl pc
              have hb : balanceOf (c :: rest)
                  = balanceOf (rest.dropWhile Char.isAlpha) := by
                rw [hsplit]
                exact balanceOf_append _ _ hl
              have hlen' : (rest.dropWhile Char.isAlpha).length ≤ N :=
                le_trans ((List.dropWhile_sublist Char.isAlpha).length_le) hlen
              rw [hd, hb]
              set tokL := (c :: rest.takeWhile Char.isAlpha).map Char.toLower with htok
              have hrec := ih (rest.dropWhile Char.isAlpha) stk pc hlen' hcount hmem
              by_cases h5 : tokL = ['x']
              · have hi : i2p (c :: rest) stk pc
                    = (i2p (rest.dropWhile Char.isAlpha) stk pc).map (PTok.var :: ·) := by
                  rw [i2p]
                  simp [h1, h2, h3, h4, ← htok, h5]
                rw [hi]
                rcases hrec with ⟨ha, hb'⟩ | ⟨ha, hb', hc'⟩ | ⟨ha, hb', ts, hc'⟩
                · exact Or.inl ⟨ha, by rw [hb', except_map_error]⟩
                · exact Or.inr (Or.inl ⟨ha, hb', by rw [hc', except_map_error]⟩)
                · exact Or.inr (Or.inr ⟨ha, hb', _, by rw [hc', except_map_ok]⟩)
              · by_cases h6 : tokL = ['p', 'i']
                · have hi : i2p (c :: rest) stk pc
                      = (i2p (rest.dropWhile Char.isAlpha) stk pc).map
                          (PTok.num "3.141593" :: ·) := by
                    rw [i2p]
                    simp [h1, h2, h3, h4, ← htok, h5, h6]
                  rw [hi]
                  rcases hrec with ⟨ha, hb'⟩ | ⟨ha, hb', hc'⟩ | ⟨ha, hb', ts, hc'⟩
                  · exact Or.inl ⟨ha, by rw [hb', except_map_error]⟩
                  · exact Or.inr (Or.inl ⟨ha, hb', by rw [hc', except_map_error]⟩)
                  · exact Or.inr (Or.inr ⟨ha, hb', _, by rw [hc', except_map_ok]⟩)
                · by_cases h7 : tokL = ['e']
                  · have hi : i2p (c :: rest) stk pc
                        = (i2p (rest.dropWhile Char.isAlpha) stk pc).map
                            (PTok.num "2.718282" :: ·) := by
                      rw [i2p]
                      simp [h1, h2, h3, h4, ← htok, h5, h6, h7]
                    rw [hi]
                    rcases hrec with ⟨ha, hb'⟩ | ⟨ha, hb', hc'⟩ | ⟨ha, hb', ts, hc'⟩
                    · exact Or.inl ⟨ha, by rw [hb', except_map_error]⟩
                    · exact Or.inr (Or.inl ⟨ha, hb', by rw [hc', except_map_error]⟩)
                    · exact Or.inr (Or.inr ⟨ha, hb', _, by rw [hc', except_map_ok]⟩)
                  · -- function name: push letters and the marker
                    have hstk2mem : ∀ a ∈ '#' :: tokL.reverse ++ stk, a ≠ ')' := by
                      intro a ha
                      rcases List.mem_append.mp ha with hl | hastk
                      · rcases List.mem_cons.mp hl with rfl | hatok
                        · decide
                        · rw [List.mem_reverse, htok] at hatok
                          obtain ⟨b, hbmem, rfl⟩ := List.mem_map.mp hatok
                          have hba : b.isAlpha = true := by
                            rcases List.mem_cons.mp hbmem with rfl | hb'
                            · exact h4
                            · exact List.mem_takeWhile_imp hb'
                          exact (toLower_ne_parens b hba).2
                      · exact hmem a hastk
                    have hstk2cnt : openCount ('#' :: tokL.reverse ++ stk) = pc := by
                      rw [openCount_append, openCount,
                        if_neg (by decide : ('#' : Char) ≠ '(')]
                      have hz : openCount tokL.reverse = 0 := by
                        apply openCount_eq_zero
                        intro a ha
                        rw [List.mem_reverse, htok] at ha
                        obtain ⟨b, hbmem, rfl⟩ := List.mem_map.mp ha
                        have hba : b.isAlpha = true := by
                          rcases List.mem_cons.mp hbmem with rfl | hb'
                          · exact h4
                          · exact List.mem_takeWhile_imp hb'
                        exact (toLower_ne_parens b hba).1
                      omega
                    have hi : i2p (c :: rest) stk pc
                        = i2p (rest.dropWhile Char.isAlpha)
                            ('#' :: tokL.reverse ++ stk) pc := by
                      rw [i2p]
                      simp [h1, h2, h3, h4, ← htok, h5, h6, h7]
                    rw [hi]
                    exact ih (rest.dropWhile Char.isAlpha)
                      ('#' :: tokL.reverse ++ stk) pc hlen' hstk2cnt hstk2mem
            · by_cases h5 : c = '('
              · -- open parenthesis
                subst h5
                have hd : depthGoesNeg ('(' :: rest) pc = depthGoesNeg rest (pc + 1) := by
                  rw [depthGoesNeg, if_pos rfl]
                have hb : pc + balanceOf ('(' :: rest) = (pc + 1) + balanceOf rest := by
                  rw [balanceOf, if_pos rfl]
                  omega
                have hcnt : openCount ('(' :: stk) = pc + 1 := by
                  rw [openCount, if_pos rfl]
                  omega
                have hmem' : ∀ a ∈ '(' :: stk, a ≠ ')' := by
                  intro a ha
                  rcases List.mem_cons.mp ha with rfl | ha'
                  · decide
                  · exact hmem a ha'
                have hi : i2p ('(' :: rest) stk pc = i2p rest ('(' :: stk) (pc + 1) := by
                  rw [i2p]
                  simp
                rw [hd, hb, hi]
                exact ih rest ('(' :: stk) (pc + 1) hlen hcnt hmem'
              · by_cases h6 : c = ')'
                · -- close parenthesis
                  subst h6
                  have hpcnn : 0 ≤ pc := hcount ▸ openCount_nonneg stk
                  by_cases hneg : pc - 1 < 0
                  · refine Or.inl ⟨?_, ?_⟩
                    · rw [depthGoesNeg, if_neg (by decide : (')' : Char) ≠ '('),
                        if_pos rfl]
                      simp [hneg]
                    · rw [i2p]
                      simp [hneg]
                  · obtain ⟨ts, stk', hok, hcnt', hmem'⟩ :=
                      emitUntilOpen_spec stk (by omega) hmem
                    obtain ⟨hcnt'', hmem''⟩ := afterFuncMark_spec stk' hmem'
                    have hd : depthGoesNeg (')' :: rest) pc = depthGoesNeg rest (pc - 1) := by
                      rw [depthGoesNeg, if_neg (by decide : (')' : Char) ≠ '('),
                        if_pos rfl]
                      simp [hneg]
                    have hb : pc + balanceOf (')' :: rest) = (pc - 1) + balanceOf rest := by
                      rw [balanceOf, if_neg (by decide : (')' : Char) ≠ '('),
                        if_pos rfl]
                      omega
                    have hcnt2 : openCount (afterFuncMark stk').2 = pc - 1 := by
                      rw [hcnt'', hcnt', hcount]
                    have hi : i2p (')' :: rest) stk pc
                        = (i2p rest (afterFuncMark stk').2 (pc - 1)).map
                            (fun out => ts ++ (afterFuncMark stk').1 ++ out) := by
                      rw [i2p]
                      simp [hneg, hok]
                    rw [hd, hb, hi]
                    rcases ih rest (afterFuncMark stk').2 (pc - 1) hlen hcnt2 hmem'' with
                      ⟨ha, hb'⟩ | ⟨ha, hb', hc'⟩ | ⟨ha, hb', ts2, hc'⟩
                    · exact Or.inl ⟨ha, by rw [hb', except_map_error]⟩
                    · exact Or.inr (Or.inl ⟨ha, hb', by rw [hc', except_map_error]⟩)
                    · exact Or.inr (Or.inr ⟨ha, hb', _, by rw [hc', except_map_ok]⟩)
                · by_cases h7 : isOpChar c = true
                  · -- operator
                    have hnp := op_ne_parens c h7
                    have hd : depthGoesNeg (c :: rest) pc = depthGoesNeg rest pc := by
                      rw [depthGoesNeg, if_neg hnp.1, if_neg hnp.2]
                    have hb : balanceOf (c :: rest) = balanceOf rest := by
                      rw [balanceOf, if_neg hnp.1, if_neg hnp.2]
                      omega
                    have hps := popOps_spec c stk
                    have hcnt' : openCount (c :: (popOps c stk).2) = pc := by
                      rw [openCount, if_neg hnp.1, hps.1]
                      omega
                    have hmem' : ∀ a ∈ c :: (popOps c stk).2, a ≠ ')' := by
                      intro a ha
                      rcases List.mem_cons.mp ha with rfl | ha'
                      · exact hnp.2
                      · exact hmem a (hps.2 a ha')
                    have hi : i2p (c :: rest) stk pc
                        = (i2p rest (c :: (popOps c stk).2) pc).map
                            (fun out => (popOps c stk).1 ++ out) := by
                      rw [i2p]
                      simp [h1, h2, h3, h4, h5, h6, h7]
                    rw [hd, hb, hi]
                    rcases ih rest (c :: (popOps c stk).2) pc hlen hcnt' hmem' with
                      ⟨ha, hb'⟩ | ⟨ha, hb', hc'⟩ | ⟨ha, hb', ts2, hc'⟩
                    · exact Or.inl ⟨ha, by rw [hb', except_map_error]⟩
                    · exact Or.inr (Or.inl ⟨ha, hb', by rw [hc', except_map_error]⟩)
                    · exact Or.inr (Or.inr ⟨ha, hb', _, by rw [hc', except_map_ok]⟩)
                  · -- unrecognized character: skipped
                    have hnp : c ≠ '(' ∧ c ≠ ')' := ⟨h5, h6⟩
                    have hd : depthGoesNeg (c :: rest) pc = depthGoesNeg rest pc := by
                      rw [depthGoesNeg, if_neg hnp.1, if_neg hnp.2]
                    have hb : balanceOf (c :: rest) = balanceOf rest := by
                      rw [balanceOf, if_neg hnp.1, if_neg hnp.2]
                      omega
                    have hi : i2p (c :: rest) stk pc = i2p rest stk pc := by
                      rw [i2p]
                      simp [h1, h2, h3, h4, h5, h6, h7]
                    rw [hd, hb, hi]
                    exact ih rest stk pc hlen hcount hmem

/-- C3: Parsing fails with the "extra closing parenthesis" error exactly
when the running parenthesis depth goes negative at some `')'`, and with
the distinct "missing closing parenthesis" error exactly when the depth
never goes negative but is still positive (nonzero) at end of input; in
particular `"x+1)"` gives the former and `"(x+1"` the latter. -/
theorem c3_unbalanced_parens :
    (∀ s : String, toRPN s = .error .extraClose ↔ depthGoesNeg s.toList 0 = true)
    ∧ (∀ s : String, toRPN s = .error .missingClose
        ↔ (depthGoesNeg s.toList 0 = false ∧ balanceOf s.toList ≠ 0))
    ∧ toRPN "x+1)" = .error .extraClose
    ∧ toRPN "(x+1" = .error .missingClose
    ∧ ParseError.extraClose ≠ ParseError.missingClose := by
  have tri : ∀ cs : List Char,
      (depthGoesNeg cs 0 = true ∧ i2p cs [] 0 = .error .extraClose)
      ∨ (depthGoesNeg cs 0 = false ∧ (0 : Int) + balanceOf cs ≠ 0
          ∧ i2p cs [] 0 = .error .missingClose)
      ∨ (depthGoesNeg cs 0 = false ∧ (0 : Int) + balanceOf cs = 0
          ∧ ∃ ts, i2p cs [] 0 = .ok ts) :=
    fun cs => i2p_paren_cases cs.length cs [] 0 le_rfl rfl
      (fun a ha => absurd ha (List.not_mem_nil a))
  refine ⟨?_, ?_, ?_, ?_, by decide⟩
  · intro s
    constructor
    · intro h
      rw [toRPN] at h
      rcases tri s.toList with ⟨hd, _⟩ | ⟨_, _, he⟩ | ⟨_, _, ts, he⟩
      · exact hd
      · rw [he] at h
        exact absurd h (by decide)
      · rw [he] at h
        exact Except.noConfusion h
    · intro h
      rw [toRPN]
      rcases tri s.toList with ⟨_, he⟩ | ⟨hd, _, _⟩ | ⟨hd, _, _⟩
      · exact he
      · rw [h] at hd
        exact Bool.noConfusion hd
      · rw [h] at hd
        exact Bool.noConfusion hd
  · intro s
    constructor
    · intro h
      rw [toRPN] at h
      rcases tri s.toList with ⟨_, he⟩ | ⟨hd, hb, _⟩ | ⟨_, _, ts, he⟩
      · rw [he] at h
        exact absurd h (by decide)
      · exact ⟨hd, by omega⟩
      · rw [he] at h
        exact Except.noConfusion h
    · rintro ⟨hd, hb⟩
      rw [toRPN]
      rcases tri s.toList with ⟨hd', _⟩ | ⟨_, _, he⟩ | ⟨_, hb', _⟩
      · rw [hd] at hd'
        exact Bool.noConfusion hd'
      · exact he
      · omega
  · simp +decide [toRPN, i2p, drainStack, popOps, firstIsDigit, numChar]
  · simp +decide [toRPN, i2p, drainStack, popOps, firstIsDigit, numChar]

/-- C1 amended: the parser accepts an expression exactly when its
parentheses are balanced (running depth never negative, zero final
balance); acceptance does not establish the one-value invariant — the
accepted `"x x"` leaves two values on the stack, and the accepted `"x y"`
leaves exactly one value even though it is not valid per the input
grammar. -/
theorem c1_amended :
    (∀ s : String, (∃ p, toRPN s = .ok p)
        ↔ (depthGoesNeg s.toList 0 = false ∧ balanceOf s.toList = 0))
    ∧ toRPN "x x" = .ok [PTok.var, PTok.var]
    ∧ (∀ x : ℚ, runPost dops x [PTok.var, PTok.var] = .ok [x, x])
    ∧ toRPN "x y" = .ok [PTok.var, PTok.func "y"]
    ∧ (∀ x : ℚ, runPost dops x [PTok.var, PTok.func "y"] = .ok [x])
    ∧ specValid "x x" = false
    ∧ specValid "x y" = false := by
  have tri : ∀ cs : List Char,
      (depthGoesNeg cs 0 = true ∧ i2p cs [] 0 = .error .extraClose)
      ∨ (depthGoesNeg cs 0 = false ∧ (0 : Int) + balanceOf cs ≠ 0
          ∧ i2p cs [] 0 = .error .missingClose)
      ∨ (depthGoesNeg cs 0 = false ∧ (0 : Int) + balanceOf cs = 0
          ∧ ∃ ts, i2p cs [] 0 = .ok ts) :=
    fun cs => i2p_paren_cases cs.length cs [] 0 le_rfl rfl
      (fun a ha => absurd ha (List.not_mem_nil a))
  refine ⟨?_, ?_, fun x => rfl, ?_, fun x => rfl, by decide, by decide⟩
  · intro s
    constructor
    · rintro ⟨p, hp⟩
      rw [toRPN] at hp
      rcases tri s.toList with ⟨_, he⟩ | ⟨_, _, he⟩ | ⟨hd, hb, _⟩
      · rw [he] at hp
        exact Except.noConfusion hp
      · rw [he] at hp
        exact Except.noConfusion hp
      · exact ⟨hd, by omega⟩
    · rintro ⟨hd, hb⟩
      rw [toRPN]
      rcases tri s.toList with ⟨hd', _⟩ | ⟨_, hb', _⟩ | ⟨_, _, ts, he⟩
      · rw [hd] at hd'
        exact Bool.noConfusion hd'
      · omega
      · exact ⟨ts, he⟩
  · simp +decide [toRPN, i2p, drainStack]
  · simp +decide [toRPN, i2p, drainStack, takeFuncName]
